import Mathlib

/-!
# Verification of the face-tracking core (src/utils/faceMatching.ts, src/App.tsx)

Shallow embedding of the multi-object tracker (`updateTrackedFaces`) and the
two slot-assignment policies: the sticky-random policy (`assignFacesToSlots`)
and the arrival-order policy (inline in `App.tsx`, lines 131-148).

Modelling conventions:
* JavaScript numbers (pixel coordinates, timestamps) are modelled by `ℚ`.
  Track ids are modelled by `ℕ` (the id counter starts at 0 and is only
  ever incremented).
* The source compares Euclidean distances (`Math.hypot`) with each other and
  with `MATCH_DISTANCE_THRESHOLD`.  Since `Real.sqrt` is strictly monotone on
  nonnegative arguments, `hypot a < hypot b ↔ a.1^2+a.2^2 < b.1^2+b.2^2` and
  `hypot a < T ↔ a.1^2+a.2^2 < T^2` (for `T ≥ 0`); the embedding therefore
  carries squared distances (`calculateFaceDistanceSq`) throughout and
  compares against `MATCH_DISTANCE_THRESHOLD ^ 2`.  Every comparison the
  source makes is preserved exactly.
* The accumulator `minDistance = Number.MAX_VALUE / bestIdx = -1` of the two
  argmin loops is modelled by an `Option` accumulator (`none` = no candidate
  seen yet); the first unclaimed candidate always replaces it, exactly as
  every finite distance is `< Number.MAX_VALUE` in the source.
* The source mutates track objects and a shared slots array in place; the
  embedding passes the updated lists explicitly.
* `Math.random` (only used through the Fisher-Yates `shuffleArray` applied to
  the available-slot list) is modelled by an explicit `shuffle` parameter;
  theorems quantify over every `shuffle` that permutes its input, which is
  exactly the guarantee Fisher-Yates provides.
* The optional `id` field of the source's `FaceBox` record is never written
  nor read by any of the tracking or slot-assignment code, so it is omitted.
-/

/-- `FaceBox` from src/types.ts: an axis-aligned detection box. -/
structure FaceBox where
  x : ℚ
  y : ℚ
  width : ℚ
  height : ℚ
deriving DecidableEq, Repr, Inhabited

/-- `TrackedFace` from src/utils/faceMatching.ts lines 9-14. -/
structure TrackedFace where
  id : ℕ
  data : FaceBox
  lastSeen : ℚ
  slotIndex : Option ℕ
deriving DecidableEq, Repr

/-- `FACE_TRACKING.MATCH_DISTANCE_THRESHOLD` from src/utils/constants.ts. -/
def MATCH_DISTANCE_THRESHOLD : ℚ := 200

/-- `FACE_TRACKING.STALE_TRACK_TIMEOUT` from src/utils/constants.ts. -/
def STALE_TRACK_TIMEOUT : ℚ := 500

/-- Squared Euclidean distance between box centers; squared-distance encoding
of `calculateFaceDistance` (src/utils/faceMatching.ts lines 19-26). -/
def calculateFaceDistanceSq (face1 face2 : FaceBox) : ℚ :=
  let center1X := face1.x + face1.width / 2
  let center1Y := face1.y + face1.height / 2
  let center2X := face2.x + face2.width / 2
  let center2Y := face2.y + face2.height / 2
  (center1X - center2X) ^ 2 + (center1Y - center2Y) ^ 2

/-- The inner argmin loop of `updateTrackedFaces` (lines 69-81): scan the
detections (carrying the current index `idx`), skipping claimed indices,
keeping the strictly closest candidate seen so far.  `best` carries
`(index, box, squared distance)`; `none` models the initial
`bestIdx = -1 / minDistance = Number.MAX_VALUE` state. -/
def bestAux (used : List ℕ) (t : FaceBox) :
    List FaceBox → ℕ → Option (ℕ × FaceBox × ℚ) → Option (ℕ × FaceBox × ℚ)
  | [], _, best => best
  | d :: ds, idx, best =>
      if idx ∈ used then bestAux used t ds (idx + 1) best
      else
        let dist := calculateFaceDistanceSq d t
        match best with
        | none => bestAux used t ds (idx + 1) (some (idx, d, dist))
        | some b =>
            if dist < b.2.2 then bestAux used t ds (idx + 1) (some (idx, d, dist))
            else bestAux used t ds (idx + 1) (some b)

/-- The closest unclaimed detection to `t` (index, box, squared distance). -/
def bestUnused (currentDetections : List FaceBox) (used : List ℕ) (t : FaceBox) :
    Option (ℕ × FaceBox × ℚ) :=
  bestAux used t currentDetections 0 none

/-- Body of the per-track matching step (lines 68-89): the updated track and
the updated claimed-index list. -/
def matchOne (currentDetections : List FaceBox) (currentTime : ℚ) (used : List ℕ)
    (track : TrackedFace) : TrackedFace × List ℕ :=
  match bestUnused currentDetections used track.data with
  | some (idx, box, dist) =>
      if dist < MATCH_DISTANCE_THRESHOLD ^ 2 then
        ({ track with data := box, lastSeen := currentTime }, used ++ [idx])
      else (track, used)
  | none => (track, used)

/-- One iteration of the `activeTracks.forEach` fold. -/
def matchStep (currentDetections : List FaceBox) (currentTime : ℚ)
    (st : List TrackedFace × List ℕ) (track : TrackedFace) :
    List TrackedFace × List ℕ :=
  let r := matchOne currentDetections currentTime st.2 track
  (st.1 ++ [r.1], r.2)

/-- Step 1 of `updateTrackedFaces` (lines 67-89): visit the tracks in order,
greedily matching each against the still-unclaimed detections.  Returns the
updated tracks and the list of claimed detection indices. -/
def matchTracks (currentDetections : List FaceBox) (currentTime : ℚ)
    (trackedFaces : List TrackedFace) : List TrackedFace × List ℕ :=
  trackedFaces.foldl (matchStep currentDetections currentTime) ([], [])

/-- The claimed-index list just before the track at position `p` is visited. -/
def usedAt (currentDetections : List FaceBox) (currentTime : ℚ)
    (trackedFaces : List TrackedFace) (p : ℕ) : List ℕ :=
  (matchTracks currentDetections currentTime (trackedFaces.take p)).2

/-- Step 2 of `updateTrackedFaces` (lines 92-101): scan the detections
(carrying the current index), creating a new track for each unclaimed one. -/
def createTracks (currentTime : ℚ) (used : List ℕ) :
    List FaceBox → ℕ → ℕ → List TrackedFace × ℕ
  | [], _, nid => ([], nid)
  | d :: ds, idx, nid =>
      if idx ∈ used then createTracks currentTime used ds (idx + 1) nid
      else
        let r := createTracks currentTime used ds (idx + 1) (nid + 1)
        (⟨nid, d, currentTime, none⟩ :: r.1, r.2)

/-- The new tracks for unclaimed detections, and the resulting next id. -/
def newTracks (currentDetections : List FaceBox) (used : List ℕ) (nextFaceId : ℕ)
    (currentTime : ℚ) : List TrackedFace × ℕ :=
  createTracks currentTime used currentDetections 0 nextFaceId

/-- The track list after matching (step 1) and creation (step 2), before the
staleness pruning of step 3. -/
def activeTracksAfter (currentDetections : List FaceBox) (trackedFaces : List TrackedFace)
    (nextFaceId : ℕ) (currentTime : ℚ) : List TrackedFace :=
  (matchTracks currentDetections currentTime trackedFaces).1 ++
    (newTracks currentDetections (matchTracks currentDetections currentTime trackedFaces).2
      nextFaceId currentTime).1

/-- Comparison used by `prunedTracks.sort((a, b) => a.id - b.id)` (line 109). -/
def idLe (a b : TrackedFace) : Prop := a.id ≤ b.id

instance : DecidableRel idLe := fun a b => Nat.decLe a.id b.id

instance : IsTotal TrackedFace idLe := ⟨fun a b => Nat.le_total a.id b.id⟩

instance : IsTrans TrackedFace idLe := ⟨fun _ _ _ h h' => Nat.le_trans h h'⟩

/-- Ascending-id sort of step 4 (line 109). -/
def sortById (l : List TrackedFace) : List TrackedFace := List.insertionSort idLe l

/-- Result record of `updateTrackedFaces` (lines 111-114). -/
structure UpdateResult where
  updatedTracks : List TrackedFace
  newNextId : ℕ
deriving DecidableEq, Repr

/-- `updateTrackedFaces` (src/utils/faceMatching.ts lines 58-115): match
existing tracks, create tracks for unclaimed detections, prune stale tracks,
sort by id. -/
def updateTrackedFaces (currentDetections : List FaceBox) (trackedFaces : List TrackedFace)
    (nextFaceId : ℕ) (currentTime : ℚ) : UpdateResult :=
  let active := activeTracksAfter currentDetections trackedFaces nextFaceId currentTime
  let prunedTracks :=
    active.filter (fun track => decide (currentTime - track.lastSeen < STALE_TRACK_TIMEOUT))
  ⟨sortById prunedTracks,
   (newTracks currentDetections (matchTracks currentDetections currentTime trackedFaces).2
      nextFaceId currentTime).2⟩

/-- `getAvailableSlots` (src/utils/faceMatching.ts lines 120-134): the slot
indices in `0..numSlots-1` not held by any track. -/
def getAvailableSlots (trackedFaces : List TrackedFace) (numSlots : ℕ) : List ℕ :=
  let usedSlots := trackedFaces.filterMap (fun track => track.slotIndex)
  (List.range numSlots).filter (fun i => decide (i ∉ usedSlots))

/-- The `track.slotIndex === undefined || track.slotIndex >= numSlots` test of
`assignFacesToSlots` (line 183). -/
def isUnassigned (track : TrackedFace) (numSlots : ℕ) : Bool :=
  match track.slotIndex with
  | none => true
  | some s => decide (numSlots ≤ s)

/-- First loop of `assignFacesToSlots` (lines 175-179): place each already
assigned in-range track's box at its slot. -/
def fillAssigned (trackedFaces : List TrackedFace) (numSlots : ℕ)
    (slots : List (Option FaceBox)) : List (Option FaceBox) :=
  trackedFaces.foldl
    (fun s track =>
      match track.slotIndex with
      | some k => if k < numSlots then s.set k (some track.data) else s
      | none => s)
    slots

/-- The `track.slotIndex = shuffledSlots[i]` mutation of the final loop of
`assignFacesToSlots` (lines 189-192), applied to the whole track list: walking
the tracks in order, the `k`-th unassigned track (0-based, counting from the
initial value of the counter) receives the `k`-th shuffled available slot, if
one exists; assigned tracks are untouched. -/
def applyAssignment (shuffled : List ℕ) (numSlots : ℕ) :
    List TrackedFace → ℕ → List TrackedFace
  | [], _ => []
  | t :: ts, k =>
      if isUnassigned t numSlots then
        (match shuffled[k]? with
         | some s => { t with slotIndex := some s }
         | none => t) :: applyAssignment shuffled numSlots ts (k + 1)
      else t :: applyAssignment shuffled numSlots ts k

/-- `assignFacesToSlots` (src/utils/faceMatching.ts lines 168-195).  The
source mutates the tracks' `slotIndex` fields in place and returns the slots
array; the embedding returns the pair (slots array, updated track list).
`shuffle` stands for `shuffleArray` (Fisher-Yates over `Math.random`, lines
139-146); theorems assume only that it permutes its input. -/
def assignFacesToSlots (shuffle : List ℕ → List ℕ) (trackedFaces : List TrackedFace)
    (numSlots : ℕ) : List (Option FaceBox) × List TrackedFace :=
  let slots := fillAssigned trackedFaces numSlots (List.replicate numSlots none)
  let unassignedFaces := trackedFaces.filter (fun track => isUnassigned track numSlots)
  let availableSlots := getAvailableSlots trackedFaces numSlots
  let shuffledSlots := shuffle availableSlots
  let slots2 :=
    (shuffledSlots.zip unassignedFaces).foldl
      (fun s p => s.set p.1 (some p.2.data)) slots
  (slots2, applyAssignment shuffledSlots numSlots trackedFaces 0)

/-- The arrival-order slot fill of src/App.tsx lines 144-148:
`prunedTracks.slice(0, 3).forEach((track, i) => newDisplayFaces[i] = track.data)`,
generalised over the slot count. -/
def fillArrival : List TrackedFace → ℕ → List (Option FaceBox) → List (Option FaceBox)
  | [], _, slots => slots
  | t :: ts, i, slots => fillArrival ts (i + 1) (slots.set i (some t.data))

/-- The arrival-order policy (src/App.tsx lines 131-148): sort the live
tracks by ascending id and place the first `numSlots` boxes at slots
`0..numSlots-1`. -/
def assignArrivalSlots (trackedFaces : List TrackedFace) (numSlots : ℕ) :
    List (Option FaceBox) :=
  fillArrival ((sortById trackedFaces).take numSlots) 0 (List.replicate numSlots none)

/-- One cycle of the driving loop (src/unnamed/part_002 lines 58-66): feed the
tracker's output state back into the next call. -/
def runStep (st : List TrackedFace × ℕ) (inp : List FaceBox × ℚ) :
    List TrackedFace × ℕ :=
  let r := updateTrackedFaces inp.1 st.1 st.2 inp.2
  (r.updatedTracks, r.newNextId)

/-- The tracker state after a sequence of updates. -/
def runState (inps : List (List FaceBox × ℚ)) (st : List TrackedFace × ℕ) :
    List TrackedFace × ℕ :=
  inps.foldl runStep st

/-- The ids handed out by one call to `updateTrackedFaces`. -/
def createdIds (currentDetections : List FaceBox) (trackedFaces : List TrackedFace)
    (nextFaceId : ℕ) (currentTime : ℚ) : List ℕ :=
  ((newTracks currentDetections (matchTracks currentDetections currentTime trackedFaces).2
      nextFaceId currentTime).1).map (fun t => t.id)

/-- All ids handed out across a sequence of updates, in creation order. -/
def runCreated (inps : List (List FaceBox × ℚ)) (st : List TrackedFace × ℕ) : List ℕ :=
  (inps.foldl
    (fun (acc : (List TrackedFace × ℕ) × List ℕ) inp =>
      (runStep acc.1 inp, acc.2 ++ createdIds inp.1 acc.1.1 acc.1.2 inp.2))
    (st, [])).2

/-- The detection indices left unclaimed among `idx, idx+1, ..., idx+len-1`. -/
def unclaimedIdx (idx len : ℕ) (used : List ℕ) : List ℕ :=
  (List.range' idx len).filter (fun i => decide (i ∉ used))

/-- Strict version of the sort comparison, used to show the sorted order is
unique when the ids are distinct. -/
def idLt (a b : TrackedFace) : Prop := a.id < b.id

instance : IsAntisymm TrackedFace idLt :=
  ⟨fun _ _ h h' => absurd (Nat.lt_trans h h') (Nat.lt_irrefl _)⟩

/-- The in-range slot indices held by the tracks, in track order. -/
def slotList (trackedFaces : List TrackedFace) (numSlots : ℕ) : List ℕ :=
  (trackedFaces.filterMap (fun t => t.slotIndex)).filter (fun s => decide (s < numSlots))

example :
    (updateTrackedFaces [⟨10, 10, 50, 50⟩] [] 0 0).updatedTracks =
      [⟨0, ⟨10, 10, 50, 50⟩, 0, none⟩] := by
  norm_num [updateTrackedFaces, activeTracksAfter, matchTracks, matchStep, matchOne,
    bestUnused, bestAux, createTracks, newTracks, calculateFaceDistanceSq, sortById,
    MATCH_DISTANCE_THRESHOLD, STALE_TRACK_TIMEOUT, List.insertionSort, List.orderedInsert,
    idLe, List.filter]

example :
    (updateTrackedFaces [⟨12, 11, 50, 50⟩] [⟨0, ⟨10, 10, 50, 50⟩, 0, none⟩] 1 20).updatedTracks =
      [⟨0, ⟨12, 11, 50, 50⟩, 20, none⟩] := by
  norm_num [updateTrackedFaces, activeTracksAfter, matchTracks, matchStep, matchOne,
    bestUnused, bestAux, createTracks, newTracks, calculateFaceDistanceSq, sortById,
    MATCH_DISTANCE_THRESHOLD, STALE_TRACK_TIMEOUT, List.insertionSort, List.orderedInsert,
    idLe, List.filter]

example :
    (updateTrackedFaces [] [⟨0, ⟨12, 11, 50, 50⟩, 20, none⟩] 1 600).updatedTracks = [] := by
  norm_num [updateTrackedFaces, activeTracksAfter, matchTracks, matchStep, matchOne,
    bestUnused, bestAux, createTracks, newTracks, calculateFaceDistanceSq, sortById,
    MATCH_DISTANCE_THRESHOLD, STALE_TRACK_TIMEOUT, List.insertionSort, List.orderedInsert,
    idLe, List.filter]

/-! ## Structural lemmas about the matching pass -/

theorem matchFold_shift (d : List FaceBox) (n : ℚ) (l : List TrackedFace)
    (acc : List TrackedFace) (used : List ℕ) :
    l.foldl (matchStep d n) (acc, used) =
      (acc ++ (l.foldl (matchStep d n) ([], used)).1,
       (l.foldl (matchStep d n) ([], used)).2) := by
  induction l generalizing acc used with
  | nil => simp
  | cons t ts ih =>
      simp only [List.foldl_cons, matchStep, List.nil_append]
      rw [ih, ih [(matchOne d n used t).1] ((matchOne d n used t).2)]
      simp

theorem matchFold_length (d : List FaceBox) (n : ℚ) (l : List TrackedFace)
    (acc : List TrackedFace) (used : List ℕ) :
    (l.foldl (matchStep d n) (acc, used)).1.length = acc.length + l.length := by
  induction l generalizing acc used with
  | nil => simp
  | cons t ts ih =>
      simp only [List.foldl_cons, matchStep]
      rw [ih]
      simp
      omega

theorem matchTracks_take_succ (d : List FaceBox) (n : ℚ) (l : List TrackedFace)
    (p : ℕ) (hp : p < l.length) :
    matchTracks d n (l.take (p + 1)) =
      matchStep d n (matchTracks d n (l.take p)) l[p] := by
  have ht : l.take (p + 1) = l.take p ++ [l[p]] := by
    rw [List.take_succ, List.getElem?_eq_getElem hp]
    rfl
  unfold matchTracks
  rw [ht, List.foldl_append]
  rfl

theorem usedAt_succ (d : List FaceBox) (n : ℚ) (l : List TrackedFace)
    (p : ℕ) (hp : p < l.length) :
    usedAt d n l (p + 1) = (matchOne d n (usedAt d n l p) l[p]).2 := by
  unfold usedAt
  rw [matchTracks_take_succ d n l p hp]
  rfl

theorem matchTracks_take_length (d : List FaceBox) (n : ℚ) (l : List TrackedFace) (p : ℕ) :
    (matchTracks d n (l.take p)).1.length = min p l.length := by
  unfold matchTracks
  have := matchFold_length d n (l.take p) [] []
  simpa using this

theorem matchTracks_drop_fold (d : List FaceBox) (n : ℚ) (l : List TrackedFace) (p : ℕ) :
    matchTracks d n l =
      (l.drop p).foldl (matchStep d n) (matchTracks d n (l.take p)) := by
  conv_lhs => rw [show l = l.take p ++ l.drop p from (List.take_append_drop _ _).symm]
  unfold matchTracks
  rw [List.foldl_append]

theorem matchTracks_getElem (d : List FaceBox) (n : ℚ) (l : List TrackedFace)
    (p : ℕ) (hp : p < l.length) :
    (matchTracks d n l).1[p]? = some (matchOne d n (usedAt d n l p) l[p]).1 := by
  have h2 : matchTracks d n (l.take (p + 1)) =
      ((matchTracks d n (l.take p)).1 ++ [(matchOne d n (usedAt d n l p) l[p]).1],
       (matchOne d n (usedAt d n l p) l[p]).2) := by
    rw [matchTracks_take_succ d n l p hp]; rfl
  have hlenp : (matchTracks d n (l.take p)).1.length = p := by
    rw [matchTracks_take_length]; omega
  rw [matchTracks_drop_fold d n l (p + 1), h2, matchFold_shift]
  have hl : p < ((matchTracks d n (l.take p)).1 ++
      [(matchOne d n (usedAt d n l p) l[p]).1]).length := by
    simp [hlenp]
  rw [List.getElem?_append_left hl,
    List.getElem?_append_right (by omega : (matchTracks d n (l.take p)).1.length ≤ p)]
  simp [hlenp]

theorem matchOne_used_cases (d : List FaceBox) (n : ℚ) (used : List ℕ) (track : TrackedFace) :
    (matchOne d n used track).2 = used ∨ ∃ i, (matchOne d n used track).2 = used ++ [i] := by
  unfold matchOne
  cases h : bestUnused d used track.data with
  | none => exact Or.inl rfl
  | some v =>
      obtain ⟨i, b, dist⟩ := v
      dsimp only
      split
      · exact Or.inr ⟨i, rfl⟩
      · exact Or.inl rfl

theorem matchFold_used_append (d : List FaceBox) (n : ℚ) (l : List TrackedFace)
    (acc : List TrackedFace) (used : List ℕ) :
    ∃ t, (l.foldl (matchStep d n) (acc, used)).2 = used ++ t := by
  induction l generalizing acc used with
  | nil => exact ⟨[], by simp⟩
  | cons t ts ih =>
      simp only [List.foldl_cons, matchStep]
      rcases matchOne_used_cases d n used t with h | ⟨i, h⟩
      · rw [h]; exact ih _ used
      · rw [h]
        obtain ⟨t', ht'⟩ := ih (acc ++ [(matchOne d n used t).1]) (used ++ [i])
        exact ⟨[i] ++ t', by rw [ht', List.append_assoc]⟩

theorem usedAt_append_final (d : List FaceBox) (n : ℚ) (l : List TrackedFace) (p : ℕ) :
    ∃ t, (matchTracks d n l).2 = usedAt d n l p ++ t := by
  rw [matchTracks_drop_fold d n l p]
  have : matchTracks d n (l.take p) =
      ((matchTracks d n (l.take p)).1, usedAt d n l p) := rfl
  rw [this]
  exact matchFold_used_append d n (l.drop p) _ _

theorem matchOne_id (d : List FaceBox) (n : ℚ) (used : List ℕ) (track : TrackedFace) :
    (matchOne d n used track).1.id = track.id := by
  unfold matchOne
  cases h : bestUnused d used track.data with
  | none => rfl
  | some v =>
      obtain ⟨i, b, dist⟩ := v
      dsimp only
      split <;> rfl

theorem matchFold_ids (d : List FaceBox) (n : ℚ) (l : List TrackedFace)
    (acc : List TrackedFace) (used : List ℕ) :
    (l.foldl (matchStep d n) (acc, used)).1.map (fun t => t.id) =
      acc.map (fun t => t.id) ++ l.map (fun t => t.id) := by
  induction l generalizing acc used with
  | nil => simp
  | cons t ts ih =>
      simp only [List.foldl_cons, matchStep]
      rw [ih]
      simp [matchOne_id]

theorem matchTracks_ids (d : List FaceBox) (n : ℚ) (l : List TrackedFace) :
    (matchTracks d n l).1.map (fun t => t.id) = l.map (fun t => t.id) := by
  unfold matchTracks
  rw [matchFold_ids]
  simp

/-! ## Characterisation of the inner argmin loop -/

theorem bestAux_some_ne_none (used : List ℕ) (t : FaceBox) :
    ∀ (ds : List FaceBox) (idx : ℕ) (b : ℕ × FaceBox × ℚ),
      bestAux used t ds idx (some b) ≠ none := by
  intro ds
  induction ds with
  | nil => intro idx b h; exact Option.noConfusion h
  | cons d ds ih =>
      intro idx b h
      rw [bestAux] at h
      by_cases hidx : idx ∈ used
      · rw [if_pos hidx] at h; exact ih _ _ h
      · rw [if_neg hidx] at h
        dsimp only at h
        by_cases hlt : calculateFaceDistanceSq d t < b.2.2
        · rw [if_pos hlt] at h; exact ih _ _ h
        · rw [if_neg hlt] at h; exact ih _ _ h

theorem bestAux_eq_none (used : List ℕ) (t : FaceBox) :
    ∀ (ds : List FaceBox) (idx : ℕ) (best : Option (ℕ × FaceBox × ℚ)),
      bestAux used t ds idx best = none →
        best = none ∧ ∀ j, j < ds.length → (idx + j) ∈ used := by
  intro ds
  induction ds with
  | nil =>
      intro idx best h
      exact ⟨h, fun j hj => absurd hj (Nat.not_lt_zero j)⟩
  | cons d ds ih =>
      intro idx best h
      rw [bestAux] at h
      by_cases hidx : idx ∈ used
      · rw [if_pos hidx] at h
        obtain ⟨hb, hall⟩ := ih _ _ h
        refine ⟨hb, fun j hj => ?_⟩
        cases j with
        | zero => simpa using hidx
        | succ j =>
            have hm := hall j (by simpa using hj)
            have harith : idx + (j + 1) = idx + 1 + j := by omega
            rw [harith]
            exact hm
      · rw [if_neg hidx] at h
        cases best with
        | none => exact absurd h (bestAux_some_ne_none used t ds (idx + 1) _)
        | some b =>
            dsimp only at h
            by_cases hlt : calculateFaceDistanceSq d t < b.2.2
            · rw [if_pos hlt] at h
              exact absurd h (bestAux_some_ne_none used t ds (idx + 1) _)
            · rw [if_neg hlt] at h
              exact absurd h (bestAux_some_ne_none used t ds (idx + 1) _)

theorem bestAux_dist (used : List ℕ) (t : FaceBox) :
    ∀ (ds : List FaceBox) (idx : ℕ) (best : Option (ℕ × FaceBox × ℚ)),
      (∀ x, best = some x → x.2.2 = calculateFaceDistanceSq x.2.1 t) →
      ∀ x, bestAux used t ds idx best = some x →
        x.2.2 = calculateFaceDistanceSq x.2.1 t := by
  intro ds
  induction ds with
  | nil => intro idx best hbest x h; exact hbest x h
  | cons d ds ih =>
      intro idx best hbest x h
      rw [bestAux] at h
      by_cases hidx : idx ∈ used
      · rw [if_pos hidx] at h
        exact ih _ _ hbest x h
      · rw [if_neg hidx] at h
        cases best with
        | none =>
            refine ih _ _ ?_ x h
            intro y hy
            cases hy
            rfl
        | some b =>
            dsimp only at h
            by_cases hlt : calculateFaceDistanceSq d t < b.2.2
            · rw [if_pos hlt] at h
              refine ih _ _ ?_ x h
              intro y hy
              cases hy
              rfl
            · rw [if_neg hlt] at h
              refine ih _ _ ?_ x h
              intro y hy
              cases hy
              exact hbest b rfl

theorem bestAux_mem (used : List ℕ) (t : FaceBox) :
    ∀ (ds : List FaceBox) (idx : ℕ) (best : Option (ℕ × FaceBox × ℚ))
      (x : ℕ × FaceBox × ℚ),
      bestAux used t ds idx best = some x →
        best = some x ∨ (idx ≤ x.1 ∧ x.1 ∉ used ∧ ds[x.1 - idx]? = some x.2.1) := by
  intro ds
  induction ds with
  | nil => intro idx best x h; exact Or.inl h
  | cons d ds ih =>
      intro idx best x h
      rw [bestAux] at h
      have shift : idx + 1 ≤ x.1 → x.1 ∉ used → ds[x.1 - (idx + 1)]? = some x.2.1 →
          idx ≤ x.1 ∧ x.1 ∉ used ∧ (d :: ds)[x.1 - idx]? = some x.2.1 := by
        intro h1 h2 h3
        refine ⟨by omega, h2, ?_⟩
        have : x.1 - idx = (x.1 - (idx + 1)) + 1 := by omega
        rw [this, List.getElem?_cons_succ]
        exact h3
      by_cases hidx : idx ∈ used
      · rw [if_pos hidx] at h
        rcases ih _ _ x h with hb | ⟨h1, h2, h3⟩
        · exact Or.inl hb
        · exact Or.inr (shift h1 h2 h3)
      · rw [if_neg hidx] at h
        have self_case : ∀ (y : ℕ × FaceBox × ℚ), y = (idx, d, calculateFaceDistanceSq d t) →
            y = x → idx ≤ x.1 ∧ x.1 ∉ used ∧ (d :: ds)[x.1 - idx]? = some x.2.1 := by
          intro y hy hyx
          subst hyx
          subst hy
          refine ⟨Nat.le_refl idx, hidx, ?_⟩
          simp
        cases best with
        | none =>
            rcases ih _ _ x h with hb | ⟨h1, h2, h3⟩
            · exact Or.inr (self_case _ rfl (Option.some.inj hb))
            · exact Or.inr (shift h1 h2 h3)
        | some b =>
            dsimp only at h
            by_cases hlt : calculateFaceDistanceSq d t < b.2.2
            · rw [if_pos hlt] at h
              rcases ih _ _ x h with hb | ⟨h1, h2, h3⟩
              · exact Or.inr (self_case _ rfl (Option.some.inj hb))
              · exact Or.inr (shift h1 h2 h3)
            · rw [if_neg hlt] at h
              rcases ih _ _ x h with hb | ⟨h1, h2, h3⟩
              · exact Or.inl (by rw [hb])
              · exact Or.inr (shift h1 h2 h3)

theorem bestAux_min (used : List ℕ) (t : FaceBox) :
    ∀ (ds : List FaceBox) (idx : ℕ) (best : Option (ℕ × FaceBox × ℚ))
      (x : ℕ × FaceBox × ℚ),
      bestAux used t ds idx best = some x →
        (∀ b₀, best = some b₀ → x.2.2 ≤ b₀.2.2) ∧
        (∀ j (hj : j < ds.length), (idx + j) ∉ used →
          x.2.2 ≤ calculateFaceDistanceSq ds[j] t) := by
  intro ds
  induction ds with
  | nil =>
      intro idx best x h
      refine ⟨fun b₀ hb => ?_, fun j hj _ => absurd hj (Nat.not_lt_zero j)⟩
      rw [bestAux, hb] at h
      rw [Option.some.inj h]
  | cons d ds ih =>
      intro idx best x h
      rw [bestAux] at h
      by_cases hidx : idx ∈ used
      · rw [if_pos hidx] at h
        obtain ⟨h1, h2⟩ := ih _ _ x h
        refine ⟨h1, fun j hj hju => ?_⟩
        cases j with
        | zero => exact absurd (by simpa using hidx) hju
        | succ j =>
            have harith : idx + 1 + j = idx + (j + 1) := by omega
            have := h2 j (by simpa using hj) (by rw [harith]; exact hju)
            simpa using this
      · rw [if_neg hidx] at h
        have tail_min : ∀ (b' : Option (ℕ × FaceBox × ℚ)),
            bestAux used t ds (idx + 1) b' = some x →
            ∀ j (hj : j + 1 < (d :: ds).length), (idx + (j + 1)) ∉ used →
              x.2.2 ≤ calculateFaceDistanceSq (d :: ds)[j + 1] t := by
          intro b' h' j hj hju
          have harith : idx + 1 + j = idx + (j + 1) := by omega
          have := (ih _ _ x h').2 j (by simpa using hj) (by rw [harith]; exact hju)
          simpa using this
        cases best with
        | none =>
            have hle : x.2.2 ≤ calculateFaceDistanceSq d t :=
              (ih _ _ x h).1 _ rfl
            refine ⟨fun b₀ hb => Option.noConfusion hb, fun j hj hju => ?_⟩
            cases j with
            | zero => simpa using hle
            | succ j => exact tail_min _ h j hj hju
        | some b =>
            dsimp only at h
            by_cases hlt : calculateFaceDistanceSq d t < b.2.2
            · rw [if_pos hlt] at h
              have hle : x.2.2 ≤ calculateFaceDistanceSq d t :=
                (ih _ _ x h).1 _ rfl
              refine ⟨fun b₀ hb => ?_, fun j hj hju => ?_⟩
              · cases Option.some.inj hb
                exact le_of_lt (lt_of_le_of_lt hle hlt)
              · cases j with
                | zero => simpa using hle
                | succ j => exact tail_min _ h j hj hju
            · rw [if_neg hlt] at h
              have hle : x.2.2 ≤ b.2.2 := (ih _ _ x h).1 _ rfl
              refine ⟨fun b₀ hb => ?_, fun j hj hju => ?_⟩
              · cases Option.some.inj hb
                exact hle
              · cases j with
                | zero =>
                    have : x.2.2 ≤ calculateFaceDistanceSq d t :=
                      le_trans hle (not_lt.mp hlt)
                    simpa using this
                | succ j => exact tail_min _ h j hj hju

/-- Top-level characterisation of the inner loop: a `some` result names an
unclaimed in-range detection whose squared distance to `t` is minimal among
the unclaimed detections. -/
theorem bestUnused_spec (currentDetections : List FaceBox) (used : List ℕ) (t : FaceBox)
    (i : ℕ) (b : FaceBox) (dist : ℚ)
    (h : bestUnused currentDetections used t = some (i, b, dist)) :
    currentDetections[i]? = some b ∧ i ∉ used ∧
      dist = calculateFaceDistanceSq b t ∧
      ∀ j (hj : j < currentDetections.length), j ∉ used →
        dist ≤ calculateFaceDistanceSq currentDetections[j] t := by
  have hmem := bestAux_mem used t currentDetections 0 none (i, b, dist) h
  have hdist := bestAux_dist used t currentDetections 0 none
    (fun x hx => Option.noConfusion hx) (i, b, dist) h
  have hmin := bestAux_min used t currentDetections 0 none (i, b, dist) h
  rcases hmem with hmem | ⟨_, h2, h3⟩
  · exact Option.noConfusion hmem
  · refine ⟨by simpa using h3, h2, hdist, fun j hj hju => ?_⟩
    have := hmin.2 j hj (by simpa using hju)
    simpa using this

/-- If the inner loop returns nothing, every detection index is claimed. -/
theorem bestUnused_eq_none (currentDetections : List FaceBox) (used : List ℕ) (t : FaceBox)
    (h : bestUnused currentDetections used t = none) :
    ∀ j, j < currentDetections.length → j ∈ used := by
  have := bestAux_eq_none used t currentDetections 0 none h
  intro j hj
  have := this.2 j hj
  simpa using this

/-! ## Sorting helpers -/

theorem sortById_perm (l : List TrackedFace) : (sortById l).Perm l :=
  List.perm_insertionSort idLe l

theorem sortById_sorted (l : List TrackedFace) : List.Sorted idLe (sortById l) :=
  List.sorted_insertionSort idLe l

/-! ## C1: eviction timing -/

/-- C1.  A track (existing-and-possibly-matched or newly created this cycle)
appears in the TrackSet returned by `updateTrackedFaces` exactly when
`now < lastSeen + staleTimeout`, i.e. exactly when
`now - lastSeen < staleTimeout`. -/
theorem eviction_timing (currentDetections : List FaceBox) (trackedFaces : List TrackedFace)
    (nextFaceId : ℕ) (currentTime : ℚ) (track : TrackedFace) :
    track ∈ (updateTrackedFaces currentDetections trackedFaces nextFaceId
        currentTime).updatedTracks ↔
      (track ∈ activeTracksAfter currentDetections trackedFaces nextFaceId currentTime ∧
        currentTime < track.lastSeen + STALE_TRACK_TIMEOUT) := by
  unfold updateTrackedFaces
  dsimp only
  rw [(sortById_perm _).mem_iff, List.mem_filter]
  simp only [decide_eq_true_eq]
  constructor
  · rintro ⟨h1, h2⟩
    exact ⟨h1, by linarith⟩
  · rintro ⟨h1, h2⟩
    exact ⟨h1, by linarith⟩

/-! ## C2 and C9: the per-track greedy matching step -/

/-- C2.  When the track at position `p` (visited in TrackSet iteration order)
finds a closest unclaimed detection `(i, b, dist)`, then: `b` is the `i`-th
detection, `i` is unclaimed, `dist` is its squared center distance, that
distance is minimal among all unclaimed detections, and the track adopts the
detection (box := b, lastSeen := now, `i` claimed for the rest of the cycle)
precisely when the distance is strictly below the threshold. -/
theorem greedy_match (currentDetections : List FaceBox) (currentTime : ℚ)
    (trackedFaces : List TrackedFace) (p i : ℕ) (b : FaceBox) (dist : ℚ)
    (hp : p < trackedFaces.length)
    (h : bestUnused currentDetections (usedAt currentDetections currentTime trackedFaces p)
        trackedFaces[p].data = some (i, b, dist)) :
    currentDetections[i]? = some b ∧
    i ∉ usedAt currentDetections currentTime trackedFaces p ∧
    dist = calculateFaceDistanceSq b trackedFaces[p].data ∧
    (∀ j (hj : j < currentDetections.length),
        j ∉ usedAt currentDetections currentTime trackedFaces p →
        dist ≤ calculateFaceDistanceSq currentDetections[j] trackedFaces[p].data) ∧
    (dist < MATCH_DISTANCE_THRESHOLD ^ 2 →
      (matchTracks currentDetections currentTime trackedFaces).1[p]? =
        some { trackedFaces[p] with data := b, lastSeen := currentTime } ∧
      usedAt currentDetections currentTime trackedFaces (p + 1) =
        usedAt currentDetections currentTime trackedFaces p ++ [i] ∧
      i ∈ (matchTracks currentDetections currentTime trackedFaces).2) ∧
    (MATCH_DISTANCE_THRESHOLD ^ 2 ≤ dist →
      (matchTracks currentDetections currentTime trackedFaces).1[p]? =
        some trackedFaces[p] ∧
      usedAt currentDetections currentTime trackedFaces (p + 1) =
        usedAt currentDetections currentTime trackedFaces p) := by
  obtain ⟨h1, h2, h3, h4⟩ := bestUnused_spec _ _ _ _ _ _ h
  have hmo : matchOne currentDetections currentTime
      (usedAt currentDetections currentTime trackedFaces p) trackedFaces[p] =
      if dist < MATCH_DISTANCE_THRESHOLD ^ 2 then
        ({ trackedFaces[p] with data := b, lastSeen := currentTime },
         usedAt currentDetections currentTime trackedFaces p ++ [i])
      else (trackedFaces[p], usedAt currentDetections currentTime trackedFaces p) := by
    unfold matchOne
    rw [h]
  refine ⟨h1, h2, h3, h4, fun hlt => ?_, fun hge => ?_⟩
  · rw [if_pos hlt] at hmo
    refine ⟨?_, ?_, ?_⟩
    · rw [matchTracks_getElem _ _ _ _ hp, hmo]
    · rw [usedAt_succ _ _ _ _ hp, hmo]
    · obtain ⟨t, ht⟩ := usedAt_append_final currentDetections currentTime trackedFaces (p + 1)
      rw [ht, usedAt_succ _ _ _ _ hp, hmo]
      simp
  · rw [if_neg (not_lt.mpr hge)] at hmo
    constructor
    · rw [matchTracks_getElem _ _ _ _ hp, hmo]
    · rw [usedAt_succ _ _ _ _ hp, hmo]

/-- C9.  A track that has no unclaimed detection strictly within the match
threshold at its turn passes through the matching pass unchanged (same box,
same `lastSeen`), and claims nothing. -/
theorem unmatched_track_unchanged (currentDetections : List FaceBox) (currentTime : ℚ)
    (trackedFaces : List TrackedFace) (p : ℕ) (hp : p < trackedFaces.length)
    (h : ∀ j (hj : j < currentDetections.length),
        j ∉ usedAt currentDetections currentTime trackedFaces p →
        ¬ calculateFaceDistanceSq currentDetections[j] trackedFaces[p].data <
            MATCH_DISTANCE_THRESHOLD ^ 2) :
    (matchTracks currentDetections currentTime trackedFaces).1[p]? =
      some trackedFaces[p] ∧
    usedAt currentDetections currentTime trackedFaces (p + 1) =
      usedAt currentDetections currentTime trackedFaces p := by
  have hmo : matchOne currentDetections currentTime
      (usedAt currentDetections currentTime trackedFaces p) trackedFaces[p] =
      (trackedFaces[p], usedAt currentDetections currentTime trackedFaces p) := by
    unfold matchOne
    cases hob : bestUnused currentDetections
        (usedAt currentDetections currentTime trackedFaces p) trackedFaces[p].data with
    | none => rfl
    | some x =>
        obtain ⟨i, b, dist⟩ := x
        obtain ⟨h1, h2, h3, _⟩ := bestUnused_spec _ _ _ _ _ _ hob
        obtain ⟨hilen, hib⟩ := List.getElem?_eq_some_iff.mp h1
        have : ¬ dist < MATCH_DISTANCE_THRESHOLD ^ 2 := by
          rw [h3, ← hib]
          exact h i hilen h2
        dsimp only
        rw [if_neg this]
  exact ⟨by rw [matchTracks_getElem _ _ _ _ hp, hmo],
    by rw [usedAt_succ _ _ _ _ hp, hmo]⟩

/-! ## Characterisation of new-track creation -/

theorem unclaimedIdx_succ (idx n : ℕ) (used : List ℕ) :
    unclaimedIdx idx (n + 1) used =
      if idx ∈ used then unclaimedIdx (idx + 1) n used
      else idx :: unclaimedIdx (idx + 1) n used := by
  unfold unclaimedIdx
  rw [List.range'_succ]
  by_cases hidx : idx ∈ used
  · rw [if_pos hidx, List.filter_cons_of_neg (by simpa using hidx)]
  · rw [if_neg hidx, List.filter_cons_of_pos (by simpa using hidx)]

theorem unclaimedIdx_mem (idx n : ℕ) (used : List ℕ) (i : ℕ)
    (h : i ∈ unclaimedIdx idx n used) : idx ≤ i ∧ i < idx + n ∧ i ∉ used := by
  unfold unclaimedIdx at h
  obtain ⟨hr, hu⟩ := List.mem_filter.mp h
  obtain ⟨j, hj, hij⟩ := List.mem_range'.mp hr
  refine ⟨by omega, by omega, by simpa using hu⟩

theorem createTracks_spec (currentTime : ℚ) (used : List ℕ) :
    ∀ (ds : List FaceBox) (idx nid : ℕ),
      (createTracks currentTime used ds idx nid).1.length =
          (unclaimedIdx idx ds.length used).length ∧
      (createTracks currentTime used ds idx nid).2 =
          nid + (unclaimedIdx idx ds.length used).length ∧
      ∀ (k i : ℕ), (unclaimedIdx idx ds.length used)[k]? = some i →
        ∃ b, ds[i - idx]? = some b ∧
          (createTracks currentTime used ds idx nid).1[k]? =
            some ⟨nid + k, b, currentTime, none⟩ := by
  intro ds
  induction ds with
  | nil =>
      intro idx nid
      refine ⟨rfl, rfl, fun k i h => ?_⟩
      simp [unclaimedIdx] at h
  | cons d ds ih =>
      intro idx nid
      rw [createTracks]
      have hsucc := unclaimedIdx_succ idx ds.length used
      by_cases hidx : idx ∈ used
      · rw [if_pos hidx]
        rw [if_pos hidx] at hsucc
        obtain ⟨ih1, ih2, ih3⟩ := ih (idx + 1) nid
        rw [List.length_cons, hsucc]
        refine ⟨ih1, ih2, fun k i h => ?_⟩
        have hmem : i ∈ unclaimedIdx (idx + 1) ds.length used := List.getElem?_mem h
        obtain ⟨hge, _, _⟩ := unclaimedIdx_mem _ _ _ _ hmem
        obtain ⟨b, hb, hres⟩ := ih3 k i h
        refine ⟨b, ?_, hres⟩
        have harith : i - idx = (i - (idx + 1)) + 1 := by omega
        rw [harith, List.getElem?_cons_succ]
        exact hb
      · rw [if_neg hidx]
        rw [if_neg hidx] at hsucc
        obtain ⟨ih1, ih2, ih3⟩ := ih (idx + 1) (nid + 1)
        dsimp only
        simp only [List.length_cons]
        rw [hsucc]
        refine ⟨by simpa using ih1, ?_, fun k i h => ?_⟩
        · rw [ih2, List.length_cons]
          omega
        · cases k with
          | zero =>
              rw [List.getElem?_cons_zero] at h
              cases Option.some.inj h
              refine ⟨d, by simp, ?_⟩
              simp
          | succ k =>
              rw [List.getElem?_cons_succ] at h
              have hmem : i ∈ unclaimedIdx (idx + 1) ds.length used := List.getElem?_mem h
              obtain ⟨hge, _, _⟩ := unclaimedIdx_mem _ _ _ _ hmem
              obtain ⟨b, hb, hres⟩ := ih3 k i h
              refine ⟨b, ?_, ?_⟩
              · have harith : i - idx = (i - (idx + 1)) + 1 := by omega
                rw [harith, List.getElem?_cons_succ]
                exact hb
              · rw [List.getElem?_cons_succ, hres]
                have harith : nid + 1 + k = nid + (k + 1) := by omega
                rw [harith]

theorem createTracks_ids (currentTime : ℚ) (used : List ℕ) :
    ∀ (ds : List FaceBox) (idx nid : ℕ),
      (createTracks currentTime used ds idx nid).1.map (fun t => t.id) =
        List.range' nid (createTracks currentTime used ds idx nid).1.length := by
  intro ds
  induction ds with
  | nil => intro idx nid; rfl
  | cons d ds ih =>
      intro idx nid
      rw [createTracks]
      by_cases hidx : idx ∈ used
      · rw [if_pos hidx]
        exact ih _ _
      · rw [if_neg hidx]
        dsimp only
        simp only [List.map_cons, List.length_cons]
        rw [ih (idx + 1) (nid + 1), List.range'_succ]

/-! ## C4: one-to-one claiming, one new track per unclaimed detection -/

theorem matchFold_used_invariant (d : List FaceBox) (n : ℚ) (l : List TrackedFace)
    (acc : List TrackedFace) (used : List ℕ) (hnd : used.Nodup)
    (hlt : ∀ i ∈ used, i < d.length) :
    (l.foldl (matchStep d n) (acc, used)).2.Nodup ∧
      ∀ i ∈ (l.foldl (matchStep d n) (acc, used)).2, i < d.length := by
  induction l generalizing acc used with
  | nil => exact ⟨hnd, hlt⟩
  | cons t ts ih =>
      simp only [List.foldl_cons, matchStep]
      cases hob : bestUnused d used t.data with
      | none =>
          have hmo : matchOne d n used t = (t, used) := by unfold matchOne; rw [hob]
          rw [hmo]
          exact ih _ _ hnd hlt
      | some x =>
          obtain ⟨i, b, dist⟩ := x
          obtain ⟨h1, h2, _, _⟩ := bestUnused_spec _ _ _ _ _ _ hob
          have hilen : i < d.length := (List.getElem?_eq_some_iff.mp h1).1
          have hmo : matchOne d n used t =
              if dist < MATCH_DISTANCE_THRESHOLD ^ 2 then
                ({ t with data := b, lastSeen := n }, used ++ [i])
              else (t, used) := by
            unfold matchOne; rw [hob]
          by_cases hth : dist < MATCH_DISTANCE_THRESHOLD ^ 2
          · rw [if_pos hth] at hmo
            rw [hmo]
            refine ih _ _ ?_ ?_
            · rw [List.nodup_append]
              exact ⟨hnd, List.nodup_singleton i,
                fun a ha hb => by simp at hb; subst hb; exact h2 ha⟩
            · intro j hj
              rcases List.mem_append.mp hj with hj | hj
              · exact hlt j hj
              · simp at hj; subst hj; exact hilen
          · rw [if_neg hth] at hmo
            rw [hmo]
            exact ih _ _ hnd hlt

/-- C4.  In one update: the list of claimed detection indices is duplicate
free (each detection is adopted by at most one track, and once claimed stays
claimed), every claimed index is in range, and the creation pass turns the
`k`-th still-unclaimed detection index into exactly the `k`-th new track
(id `nextFaceId + k`, box equal to that detection, lastSeen now, no slot) —
one new track per unclaimed detection and nothing else. -/
theorem detection_claims (currentDetections : List FaceBox) (currentTime : ℚ)
    (trackedFaces : List TrackedFace) (nextFaceId : ℕ) :
    (matchTracks currentDetections currentTime trackedFaces).2.Nodup ∧
    (∀ i ∈ (matchTracks currentDetections currentTime trackedFaces).2,
        i < currentDetections.length) ∧
    (newTracks currentDetections (matchTracks currentDetections currentTime trackedFaces).2
        nextFaceId currentTime).1.length =
      (unclaimedIdx 0 currentDetections.length
        (matchTracks currentDetections currentTime trackedFaces).2).length ∧
    ∀ (k i : ℕ),
      (unclaimedIdx 0 currentDetections.length
        (matchTracks currentDetections currentTime trackedFaces).2)[k]? = some i →
      ∃ b, currentDetections[i]? = some b ∧
        (newTracks currentDetections
          (matchTracks currentDetections currentTime trackedFaces).2
          nextFaceId currentTime).1[k]? =
            some ⟨nextFaceId + k, b, currentTime, none⟩ := by
  obtain ⟨hnd, hlt⟩ := matchFold_used_invariant currentDetections currentTime trackedFaces
    [] [] List.nodup_nil (fun i hi => absurd hi (List.not_mem_nil i))
  obtain ⟨hl, _, hpt⟩ := createTracks_spec currentTime
    (matchTracks currentDetections currentTime trackedFaces).2 currentDetections 0 nextFaceId
  refine ⟨hnd, hlt, hl, fun k i h => ?_⟩
  obtain ⟨b, hb, hres⟩ := hpt k i h
  rw [Nat.sub_zero] at hb
  exact ⟨b, hb, hres⟩

/-! ## C3: id monotonicity across update sequences -/

theorem createdIds_range (currentDetections : List FaceBox) (trackedFaces : List TrackedFace)
    (nextFaceId : ℕ) (currentTime : ℚ) :
    ∃ m, createdIds currentDetections trackedFaces nextFaceId currentTime =
        List.range' nextFaceId m ∧
      (updateTrackedFaces currentDetections trackedFaces nextFaceId currentTime).newNextId =
        nextFaceId + m := by
  refine ⟨(newTracks currentDetections
      (matchTracks currentDetections currentTime trackedFaces).2
      nextFaceId currentTime).1.length, ?_, ?_⟩
  · unfold createdIds newTracks
    rw [createTracks_ids]
  · unfold updateTrackedFaces
    dsimp only
    obtain ⟨hl, hn, _⟩ := createTracks_spec currentTime
      (matchTracks currentDetections currentTime trackedFaces).2 currentDetections 0 nextFaceId
    unfold newTracks
    rw [hn, hl]

theorem runCreated_shift (inps : List (List FaceBox × ℚ)) :
    ∀ (st : List TrackedFace × ℕ) (acc : List ℕ),
      (inps.foldl
        (fun (a : (List TrackedFace × ℕ) × List ℕ) inp =>
          (runStep a.1 inp, a.2 ++ createdIds inp.1 a.1.1 a.1.2 inp.2)) (st, acc)).2 =
        acc ++ runCreated inps st ∧
      (inps.foldl
        (fun (a : (List TrackedFace × ℕ) × List ℕ) inp =>
          (runStep a.1 inp, a.2 ++ createdIds inp.1 a.1.1 a.1.2 inp.2)) (st, acc)).1 =
        runState inps st := by
  induction inps with
  | nil => intro st acc; exact ⟨by simp [runCreated], rfl⟩
  | cons inp inps ih =>
      intro st acc
      simp only [List.foldl_cons]
      obtain ⟨h1, h2⟩ := ih (runStep st inp) (acc ++ createdIds inp.1 st.1 st.2 inp.2)
      obtain ⟨h1', _⟩ := ih (runStep st inp) ([] ++ createdIds inp.1 st.1 st.2 inp.2)
      constructor
      · rw [h1]
        unfold runCreated
        simp only [List.foldl_cons]
        rw [h1']
        simp only [List.nil_append, List.append_assoc]
        rfl
      · rw [h2]
        rfl

theorem runCreated_cons (inp : List FaceBox × ℚ) (inps : List (List FaceBox × ℚ))
    (st : List TrackedFace × ℕ) :
    runCreated (inp :: inps) st =
      createdIds inp.1 st.1 st.2 inp.2 ++ runCreated inps (runStep st inp) := by
  unfold runCreated
  simp only [List.foldl_cons]
  have hs := (runCreated_shift inps (runStep st inp) ([] ++ createdIds inp.1 st.1 st.2 inp.2)).1
  rw [hs]
  simp only [List.nil_append]
  rfl

theorem runCreated_spec (inps : List (List FaceBox × ℚ)) :
    ∀ (st : List TrackedFace × ℕ),
      List.Pairwise (· < ·) (runCreated inps st) ∧
      (∀ x ∈ runCreated inps st, st.2 ≤ x ∧ x < (runState inps st).2) ∧
      st.2 ≤ (runState inps st).2 := by
  induction inps with
  | nil =>
      intro st
      refine ⟨by simp [runCreated], fun x hx => ?_, Nat.le_refl _⟩
      simp [runCreated] at hx
  | cons inp inps ih =>
      intro st
      obtain ⟨m, hcr, hnid⟩ := createdIds_range inp.1 st.1 st.2 inp.2
      have hstep : (runStep st inp).2 = st.2 + m := hnid
      obtain ⟨ih1, ih2, ih3⟩ := ih (runStep st inp)
      have hrs : runState (inp :: inps) st = runState inps (runStep st inp) := rfl
      rw [runCreated_cons, hrs]
      have hfirst : ∀ x ∈ createdIds inp.1 st.1 st.2 inp.2, st.2 ≤ x ∧ x < st.2 + m := by
        intro x hx
        rw [hcr] at hx
        obtain ⟨j, hj, hxe⟩ := List.mem_range'.mp hx
        omega
      refine ⟨?_, ?_, ?_⟩
      · rw [List.pairwise_append]
        refine ⟨by rw [hcr]; exact List.pairwise_lt_range' st.2 m, ih1, ?_⟩
        intro a ha b hb
        have h1 := (hfirst a ha).2
        have h2 := (ih2 b hb).1
        rw [hstep] at h2
        omega
      · intro x hx
        rcases List.mem_append.mp hx with hx | hx
        · have h1 := hfirst x hx
          have : st.2 + m ≤ (runState inps (runStep st inp)).2 := by
            rw [← hstep]; exact ih3
          omega
        · have h1 := ih2 x hx
          rw [hstep] at h1
          omega
      · have h4 : (runStep st inp).2 ≤ (runState inps (runStep st inp)).2 :=
          (ih (runStep st inp)).2.2
        omega

/-- C3.  Starting from the empty TrackSet and `nextId = 0`: the sequence of
ids handed out across any sequence of updates is strictly increasing (each new
track's id exceeds every id created before it), never repeats an id (even
after the track holding it is evicted), and the returned `nextId` never
decreases from one update to a later one. -/
theorem id_monotonicity (inps : List (List FaceBox × ℚ)) (m n : ℕ) (h : m ≤ n) :
    List.Pairwise (· < ·) (runCreated inps ([], 0)) ∧
    (runCreated inps ([], 0)).Nodup ∧
    (runState (inps.take m) ([], 0)).2 ≤ (runState (inps.take n) ([], 0)).2 := by
  obtain ⟨h1, _, _⟩ := runCreated_spec inps ([], 0)
  refine ⟨h1, List.Pairwise.imp Nat.ne_of_lt h1, ?_⟩
  have hsplit : inps.take n = inps.take m ++ (inps.drop m).take (n - m) := by
    rw [← List.take_add]
    congr 1
    omega
  rw [hsplit]
  unfold runState
  rw [List.foldl_append]
  exact (runCreated_spec ((inps.drop m).take (n - m)) _).2.2

/-! ## C10: the returned TrackSet is sorted in strictly ascending id order -/

theorem sorted_strict_of_nodup (l : List TrackedFace) (hs : List.Sorted idLe l)
    (hnd : (l.map (fun t => t.id)).Nodup) :
    List.Pairwise (fun a b => a.id < b.id) l := by
  have hne : List.Pairwise (fun a b : ℕ => a ≠ b) (l.map fun t => t.id) := hnd
  have h2 : List.Pairwise (fun a b : TrackedFace => a.id ≠ b.id) l :=
    List.pairwise_map.mp hne
  exact (hs.and h2).imp (fun h => lt_of_le_of_ne h.1 h.2)

theorem activeTracksAfter_ids_nodup (currentDetections : List FaceBox)
    (trackedFaces : List TrackedFace) (nextFaceId : ℕ) (currentTime : ℚ)
    (hnd : (trackedFaces.map (fun t => t.id)).Nodup)
    (hlt : ∀ t ∈ trackedFaces, t.id < nextFaceId) :
    ((activeTracksAfter currentDetections trackedFaces nextFaceId currentTime).map
      (fun t => t.id)).Nodup := by
  unfold activeTracksAfter
  rw [List.map_append]
  rw [List.nodup_append]
  rw [matchTracks_ids]
  unfold newTracks
  rw [createTracks_ids]
  refine ⟨hnd, List.nodup_range' _ _, ?_⟩
  intro a ha hb
  obtain ⟨t, ht, hta⟩ := List.mem_map.mp ha
  obtain ⟨j, _, hbe⟩ := List.mem_range'.mp hb
  have h1 : a < nextFaceId := hta ▸ hlt t ht
  omega

/-- C10.  For every well-formed input (a TrackSet with pairwise-distinct ids,
all of them below the current `nextId`), the TrackSet returned by
`updateTrackedFaces` is sorted in strictly ascending id order, regardless of
the order of the input TrackSet. -/
theorem output_sorted (currentDetections : List FaceBox) (trackedFaces : List TrackedFace)
    (nextFaceId : ℕ) (currentTime : ℚ)
    (hnd : (trackedFaces.map (fun t => t.id)).Nodup)
    (hlt : ∀ t ∈ trackedFaces, t.id < nextFaceId) :
    List.Pairwise (fun a b => a.id < b.id)
      (updateTrackedFaces currentDetections trackedFaces nextFaceId
        currentTime).updatedTracks := by
  have hactive := activeTracksAfter_ids_nodup currentDetections trackedFaces
    nextFaceId currentTime hnd hlt
  unfold updateTrackedFaces
  dsimp only
  apply sorted_strict_of_nodup _ (sortById_sorted _)
  have hperm : ((sortById ((activeTracksAfter currentDetections trackedFaces nextFaceId
      currentTime).filter
        (fun track => decide (currentTime - track.lastSeen < STALE_TRACK_TIMEOUT)))).map
          (fun t => t.id)).Perm
      (((activeTracksAfter currentDetections trackedFaces nextFaceId currentTime).filter
        (fun track => decide (currentTime - track.lastSeen < STALE_TRACK_TIMEOUT))).map
          (fun t => t.id)) :=
    (sortById_perm _).map _
  apply hperm.nodup_iff.mpr
  exact List.Nodup.sublist ((List.filter_sublist _).map _) hactive

/-! ## C5: the arrival-order policy -/

theorem fillArrival_length (ts : List TrackedFace) :
    ∀ (i : ℕ) (slots : List (Option FaceBox)),
      (fillArrival ts i slots).length = slots.length := by
  induction ts with
  | nil => intro i slots; rfl
  | cons t ts ih =>
      intro i slots
      rw [fillArrival, ih]
      exact List.length_set ..

theorem fillArrival_getElem_lt (ts : List TrackedFace) :
    ∀ (i k : ℕ) (slots : List (Option FaceBox)), k < i →
      (fillArrival ts i slots)[k]? = slots[k]? := by
  induction ts with
  | nil => intro i k slots _; rfl
  | cons t ts ih =>
      intro i k slots hk
      rw [fillArrival, ih _ _ _ (by omega)]
      exact List.getElem?_set_ne (by omega)

theorem fillArrival_getElem (ts : List TrackedFace) :
    ∀ (i k : ℕ) (slots : List (Option FaceBox)), i ≤ k → k < slots.length →
      (fillArrival ts i slots)[k]? =
        match ts[k - i]? with
        | some t => some (some t.data)
        | none => slots[k]? := by
  induction ts with
  | nil => intro i k slots _ _; rfl
  | cons t ts ih =>
      intro i k slots hik hk
      rw [fillArrival]
      by_cases hek : k = i
      · subst hek
        rw [fillArrival_getElem_lt ts (k + 1) k _ (by omega)]
        simp only [Nat.sub_self, List.getElem?_cons_zero]
        exact List.getElem?_set_self (by omega)
      · have hik' : i + 1 ≤ k := by omega
        rw [ih (i + 1) k _ hik' (by rw [List.length_set]; omega)]
        have harith : k - i = (k - (i + 1)) + 1 := by omega
        rw [harith, List.getElem?_cons_succ]
        cases ts[k - (i + 1)]? with
        | some u => rfl
        | none =>
            dsimp only
            exact List.getElem?_set_ne (by omega)

/-- The arrival-order fill, described pointwise: slot `k` holds the box of the
`k`-th track in ascending-id order, when one exists. -/
theorem assignArrivalSlots_eq (ts : List TrackedFace) (numSlots : ℕ) :
    assignArrivalSlots ts numSlots =
      (List.range numSlots).map (fun k => ((sortById ts)[k]?).map (fun t => t.data)) := by
  apply List.ext_getElem?
  intro k
  by_cases hk : k < numSlots
  · unfold assignArrivalSlots
    rw [fillArrival_getElem _ 0 k _ (Nat.zero_le k) (by simpa using hk)]
    rw [Nat.sub_zero, List.getElem?_take]
    rw [if_pos hk]
    have hrhs : ((List.range numSlots).map
        (fun k => ((sortById ts)[k]?).map (fun t => t.data)))[k]? =
        some (((sortById ts)[k]?).map (fun t => t.data)) := by
      rw [List.getElem?_map, List.getElem?_range hk]
      rfl
    rw [hrhs]
    cases (sortById ts)[k]? with
    | some u => rfl
    | none =>
        dsimp only
        rw [List.getElem?_replicate]
        rw [if_pos hk]
        rfl
  · have h1 : (assignArrivalSlots ts numSlots).length = numSlots := by
      unfold assignArrivalSlots
      rw [fillArrival_length]
      exact List.length_replicate ..
    have h2 : ((List.range numSlots).map
        (fun k => ((sortById ts)[k]?).map (fun t => t.data))).length = numSlots := by
      rw [List.length_map, List.length_range]
    rw [List.getElem?_eq_none (by omega), List.getElem?_eq_none (by omega)]

/-- C5.  The arrival-order policy (App.tsx lines 131-148) sorts the live
tracks by ascending id and places the first `numSlots` boxes at slots
`0..numSlots-1` in that order; in particular for a TrackSet holding ids
`{3, 7, 9}` in any iteration order and `numSlots = 3`, the output is
`[box(3), box(7), box(9)]`. -/
theorem arrival_order_assign (tracks : List TrackedFace) (b3 b7 b9 : FaceBox)
    (l3 l7 l9 : ℚ) (s3 s7 s9 : Option ℕ)
    (hperm : tracks.Perm [⟨3, b3, l3, s3⟩, ⟨7, b7, l7, s7⟩, ⟨9, b9, l9, s9⟩]) :
    (∀ (ts : List TrackedFace) (numSlots : ℕ),
      assignArrivalSlots ts numSlots =
        (List.range numSlots).map (fun k => ((sortById ts)[k]?).map (fun t => t.data))) ∧
    assignArrivalSlots tracks 3 = [some b3, some b7, some b9] := by
  refine ⟨assignArrivalSlots_eq, ?_⟩
  have hids : ((sortById tracks).map (fun t => t.id)).Nodup := by
    have hp2 : ((sortById tracks).map (fun t => t.id)).Perm
        ([⟨3, b3, l3, s3⟩, ⟨7, b7, l7, s7⟩, (⟨9, b9, l9, s9⟩ : TrackedFace)].map
          (fun t => t.id)) :=
      ((sortById_perm tracks).trans hperm).map _
    apply hp2.nodup_iff.mpr
    exact (by decide : ([3, 7, 9] : List ℕ).Nodup)
  have hsort : sortById tracks =
      [⟨3, b3, l3, s3⟩, ⟨7, b7, l7, s7⟩, ⟨9, b9, l9, s9⟩] := by
    apply List.eq_of_perm_of_sorted (r := idLt)
    · exact (sortById_perm tracks).trans hperm
    · exact sorted_strict_of_nodup _ (sortById_sorted _) hids
    · refine List.Pairwise.cons (fun t ht => ?_) (List.Pairwise.cons (fun t ht => ?_)
        (List.pairwise_singleton _ _))
      · unfold idLt
        simp only [List.mem_cons, List.not_mem_nil, or_false] at ht
        rcases ht with rfl | rfl
        · exact (by decide : (3 : ℕ) < 7)
        · exact (by decide : (3 : ℕ) < 9)
      · unfold idLt
        simp only [List.mem_cons, List.not_mem_nil, or_false] at ht
        subst ht
        exact (by decide : (7 : ℕ) < 9)
  unfold assignArrivalSlots
  rw [hsort]
  rfl

/-! ## The sticky-random policy: slot bookkeeping -/

theorem slotList_nil (numSlots : ℕ) : slotList [] numSlots = [] := rfl

theorem slotList_cons (t : TrackedFace) (ts : List TrackedFace) (numSlots : ℕ) :
    slotList (t :: ts) numSlots =
      match t.slotIndex with
      | some j => if j < numSlots then j :: slotList ts numSlots else slotList ts numSlots
      | none => slotList ts numSlots := by
  unfold slotList
  rw [List.filterMap_cons]
  cases hs : t.slotIndex with
  | none => rfl
  | some j =>
      dsimp only
      by_cases hj : j < numSlots
      · rw [if_pos hj, List.filter_cons_of_pos (by simpa using hj)]
      · rw [if_neg hj, List.filter_cons_of_neg (by simpa using hj)]

theorem isUnassigned_false (t : TrackedFace) (numSlots : ℕ)
    (h : isUnassigned t numSlots = false) :
    ∃ j, t.slotIndex = some j ∧ j < numSlots := by
  unfold isUnassigned at h
  cases hs : t.slotIndex with
  | none => rw [hs] at h; exact Bool.noConfusion h
  | some j =>
      rw [hs] at h
      refine ⟨j, rfl, ?_⟩
      simpa using h

theorem isUnassigned_true (t : TrackedFace) (numSlots : ℕ)
    (h : isUnassigned t numSlots = true) :
    t.slotIndex = none ∨ ∃ j, t.slotIndex = some j ∧ numSlots ≤ j := by
  unfold isUnassigned at h
  cases hs : t.slotIndex with
  | none => exact Or.inl rfl
  | some j =>
      rw [hs] at h
      exact Or.inr ⟨j, rfl, by simpa using h⟩

theorem applyAssignment_getElem (shuffled : List ℕ) (numSlots : ℕ) :
    ∀ (ts : List TrackedFace) (k p : ℕ) (hp : p < ts.length),
      (applyAssignment shuffled numSlots ts k)[p]? = some (
        if isUnassigned ts[p] numSlots then
          match shuffled[k + (ts.take p).countP (fun t => isUnassigned t numSlots)]? with
          | some s => { ts[p] with slotIndex := some s }
          | none => ts[p]
        else ts[p]) := by
  intro ts
  induction ts with
  | nil => intro k p hp; exact absurd hp (Nat.not_lt_zero p)
  | cons t ts ih =>
      intro k p hp
      rw [applyAssignment]
      cases p with
      | zero =>
          simp only [List.getElem_cons_zero, List.take_zero, List.countP_nil, Nat.add_zero]
          by_cases hu : isUnassigned t numSlots = true
          · rw [if_pos hu, List.getElem?_cons_zero, if_pos hu]
          · rw [if_neg hu, List.getElem?_cons_zero, if_neg hu]
      | succ q =>
          have hq : q < ts.length := by simpa using hp
          simp only [List.getElem_cons_succ, List.take_succ_cons, List.countP_cons]
          by_cases hu : isUnassigned t numSlots = true
          · rw [if_pos hu, List.getElem?_cons_succ, ih (k + 1) q hq, if_pos hu]
            have harith : k + 1 + List.countP (fun t => isUnassigned t numSlots) (ts.take q) =
                k + (List.countP (fun t => isUnassigned t numSlots) (ts.take q) + 1) := by
              omega
            rw [harith]
          · rw [if_neg hu, List.getElem?_cons_succ, ih k q hq, if_neg hu]
            have harith : k + List.countP (fun t => isUnassigned t numSlots) (ts.take q) =
                k + (List.countP (fun t => isUnassigned t numSlots) (ts.take q) + 0) := by
              omega
            rw [harith]

theorem fillAssigned_length (numSlots : ℕ) :
    ∀ (ts : List TrackedFace) (slots : List (Option FaceBox)),
      (fillAssigned ts numSlots slots).length = slots.length := by
  intro ts
  induction ts with
  | nil => intro slots; rfl
  | cons t ts ih =>
      intro slots
      unfold fillAssigned
      rw [List.foldl_cons]
      cases hs : t.slotIndex with
      | none => exact ih slots
      | some j =>
          dsimp only
          by_cases hj : j < numSlots
          · rw [if_pos hj]
            have := ih (slots.set j (some t.data))
            unfold fillAssigned at this
            rw [this, List.length_set]
          · rw [if_neg hj]
            exact ih slots

theorem fillAssigned_getElem_of_not_written (numSlots : ℕ) (k : ℕ) :
    ∀ (ts : List TrackedFace) (slots : List (Option FaceBox)),
      (∀ u ∈ ts, u.slotIndex ≠ some k) →
      (fillAssigned ts numSlots slots)[k]? = slots[k]? := by
  intro ts
  induction ts with
  | nil => intro slots _; rfl
  | cons t ts ih =>
      intro slots hno
      unfold fillAssigned
      rw [List.foldl_cons]
      have htail : ∀ u ∈ ts, u.slotIndex ≠ some k :=
        fun u hu => hno u (List.mem_cons_of_mem t hu)
      cases hs : t.slotIndex with
      | none => exact ih slots htail
      | some j =>
          dsimp only
          by_cases hj : j < numSlots
          · rw [if_pos hj]
            have hres := ih (slots.set j (some t.data)) htail
            unfold fillAssigned at hres
            rw [hres]
            have hjk : j ≠ k := by
              intro he
              exact hno t (List.mem_cons_self t ts) (by rw [hs, he])
            exact List.getElem?_set_ne hjk
          · rw [if_neg hj]
            exact ih slots htail

theorem fillAssigned_getElem_of_unique_writer (numSlots : ℕ) (k : ℕ) (t : TrackedFace)
    (hslot : t.slotIndex = some k) (hkn : k < numSlots) :
    ∀ (ts : List TrackedFace) (slots : List (Option FaceBox)),
      k < slots.length → t ∈ ts →
      (∀ u ∈ ts, u.slotIndex = some k → u = t) →
      (fillAssigned ts numSlots slots)[k]? = some (some t.data) := by
  intro ts
  induction ts with
  | nil => intro slots _ ht _; exact absurd ht (List.not_mem_nil t)
  | cons u ts ih =>
      intro slots hk ht huniq
      unfold fillAssigned
      rw [List.foldl_cons]
      by_cases hu : u.slotIndex = some k
      · have hut : u = t := huniq u (List.mem_cons_self u ts) hu
        rw [hut, hslot]
        dsimp only
        rw [if_pos hkn]
        by_cases hex : ∃ v ∈ ts, v.slotIndex = some k
        · obtain ⟨v, hv, hvs⟩ := hex
          have hvt : v = t := huniq v (List.mem_cons_of_mem u hv) hvs
          have ht2 : t ∈ ts := hvt ▸ hv
          have := ih (slots.set k (some t.data)) (by rw [List.length_set]; omega) ht2
            (fun w hw hws => huniq w (List.mem_cons_of_mem u hw) hws)
          unfold fillAssigned at this
          exact this
        · have hno : ∀ w ∈ ts, w.slotIndex ≠ some k := by
            intro w hw hws
            exact hex ⟨w, hw, hws⟩
          have hres := fillAssigned_getElem_of_not_written numSlots k ts
            (slots.set k (some t.data)) hno
          unfold fillAssigned at hres
          rw [hres]
          exact List.getElem?_set_self hk
      · have ht' : t ∈ ts := by
          rcases List.mem_cons.mp ht with he | hm
          · exact absurd (he ▸ hslot) hu
          · exact hm
        have huniq' : ∀ w ∈ ts, w.slotIndex = some k → w = t :=
          fun w hw hws => huniq w (List.mem_cons_of_mem u hw) hws
        cases hs : u.slotIndex with
        | none => exact ih slots hk ht' huniq'
        | some j =>
            dsimp only
            by_cases hj : j < numSlots
            · rw [if_pos hj]
              have hjk : j ≠ k := by
                intro he
                exact hu (by rw [hs, he])
              exact ih (slots.set j (some u.data)) (by rw [List.length_set]; omega) ht' huniq'
            · rw [if_neg hj]
              exact ih slots hk ht' huniq'

theorem zipfold_getElem_of_notmem (k : ℕ) :
    ∀ (pairs : List (ℕ × TrackedFace)) (slots : List (Option FaceBox)),
      (∀ pr ∈ pairs, pr.1 ≠ k) →
      (pairs.foldl (fun s p => s.set p.1 (some p.2.data)) slots)[k]? = slots[k]? := by
  intro pairs
  induction pairs with
  | nil => intro slots _; rfl
  | cons pr pairs ih =>
      intro slots hno
      rw [List.foldl_cons]
      rw [ih _ (fun q hq => hno q (List.mem_cons_of_mem pr hq))]
      exact List.getElem?_set_ne (hno pr (List.mem_cons_self pr pairs))

theorem slotList_count (numSlots k : ℕ) (hk : k < numSlots) :
    ∀ (ts : List TrackedFace),
      (slotList ts numSlots).count k =
        ts.countP (fun t => decide (t.slotIndex = some k)) := by
  intro ts
  induction ts with
  | nil => rfl
  | cons t ts ih =>
      rw [slotList_cons, List.countP_cons]
      cases hs : t.slotIndex with
      | none =>
          dsimp only
          rw [ih]
          simp [hs]
      | some j =>
          dsimp only
          by_cases hj : j < numSlots
          · rw [if_pos hj, List.count_cons, ih]
            by_cases hjk : j = k
            · subst hjk
              simp [hs]
            · simp [hs, hjk, Ne.symm hjk]
          · rw [if_neg hj, ih]
            have hjk : j ≠ k := by omega
            simp [hs, hjk]

theorem two_mem_le_length {α : Type} (l : List α) (a b : α) (ha : a ∈ l) (hb : b ∈ l)
    (hab : a ≠ b) : 2 ≤ l.length := by
  cases l with
  | nil => exact absurd ha (List.not_mem_nil a)
  | cons x xs =>
      cases xs with
      | nil =>
          rcases List.mem_singleton.mp ha with rfl
          rcases List.mem_singleton.mp hb with rfl
          exact absurd rfl hab
      | cons y ys => simp [Nat.succ_le_succ, List.length_cons]

/-- When the in-range slot indices are duplicate free, a track holding the
in-range slot `k` is the only track holding it. -/
theorem unique_slot_holder (tracks : List TrackedFace) (numSlots k : ℕ)
    (hnd : (slotList tracks numSlots).Nodup) (hk : k < numSlots)
    (t : TrackedFace) (ht : t ∈ tracks) (hslot : t.slotIndex = some k) :
    ∀ u ∈ tracks, u.slotIndex = some k → u = t := by
  intro u hu hus
  by_contra hne
  have hcount : 2 ≤ tracks.countP (fun t => decide (t.slotIndex = some k)) := by
    rw [List.countP_eq_length_filter]
    refine two_mem_le_length _ u t ?_ ?_ hne
    · exact List.mem_filter.mpr ⟨hu, by simpa using hus⟩
    · exact List.mem_filter.mpr ⟨ht, by simpa using hslot⟩
  have hle := List.nodup_iff_count_le_one.mp hnd k
  rw [slotList_count numSlots k hk tracks] at hle
  omega

/-! ## C6: sticky persistence of an assigned slot -/

/-- C6.  A track currently holding slot `k < numSlots` keeps exactly that
slot index across any further `assignFacesToSlots` call (whatever other
tracks exist), and the output array holds its current box at position `k`. -/
theorem sticky_slot_persistence (shuffle : List ℕ → List ℕ)
    (hsh : ∀ l : List ℕ, (shuffle l).Perm l)
    (tracks : List TrackedFace) (numSlots p k : ℕ) (hp : p < tracks.length)
    (hk : tracks[p].slotIndex = some k) (hkn : k < numSlots)
    (hnd : (slotList tracks numSlots).Nodup) :
    (assignFacesToSlots shuffle tracks numSlots).2[p]? = some tracks[p] ∧
    (assignFacesToSlots shuffle tracks numSlots).1[k]? = some (some tracks[p].data) := by
  have hun : isUnassigned tracks[p] numSlots = false := by
    unfold isUnassigned
    rw [hk]
    simpa using hkn
  have hmemp : tracks[p] ∈ tracks := List.getElem_mem hp
  constructor
  · show (applyAssignment (shuffle (getAvailableSlots tracks numSlots)) numSlots
        tracks 0)[p]? = some tracks[p]
    rw [applyAssignment_getElem _ _ tracks 0 p hp]
    rw [if_neg (by rw [hun]; exact Bool.false_ne_true)]
  · have hkused : k ∈ tracks.filterMap (fun t => t.slotIndex) :=
      List.mem_filterMap.mpr ⟨tracks[p], hmemp, hk⟩
    have hknotav : k ∉ getAvailableSlots tracks numSlots := by
      intro hmem
      unfold getAvailableSlots at hmem
      have h2 := (List.mem_filter.mp hmem).2
      rw [decide_eq_true_iff] at h2
      exact h2 hkused
    have hknotsh : ∀ pr ∈ (shuffle (getAvailableSlots tracks numSlots)).zip
        (tracks.filter (fun t => isUnassigned t numSlots)), pr.1 ≠ k := by
      intro pr hpr he
      have h1 := (List.of_mem_zip hpr).1
      have h2 : pr.1 ∈ getAvailableSlots tracks numSlots := ((hsh _).mem_iff).mp h1
      exact hknotav (he ▸ h2)
    show (((shuffle (getAvailableSlots tracks numSlots)).zip
        (tracks.filter (fun t => isUnassigned t numSlots))).foldl
          (fun s pr => s.set pr.1 (some pr.2.data))
          (fillAssigned tracks numSlots (List.replicate numSlots none)))[k]? =
        some (some tracks[p].data)
    rw [zipfold_getElem_of_notmem k _ _ hknotsh]
    exact fillAssigned_getElem_of_unique_writer numSlots k tracks[p] hk hkn tracks _
      (by rw [List.length_replicate]; exact hkn) hmemp
      (unique_slot_holder tracks numSlots k hnd hkn tracks[p] hmemp hk)

/-! ## C8: no two tracks share an in-range slot -/

theorem slotList_cons_unassigned (t : TrackedFace) (ts : List TrackedFace) (numSlots : ℕ)
    (hu : isUnassigned t numSlots = true) :
    slotList (t :: ts) numSlots = slotList ts numSlots := by
  rw [slotList_cons]
  rcases isUnassigned_true t numSlots hu with hs | ⟨j, hs, hj⟩
  · rw [hs]
  · rw [hs]
    dsimp only
    rw [if_neg (by omega)]

theorem applyAssignment_slotList (shuffled : List ℕ) (numSlots : ℕ)
    (hnd : shuffled.Nodup) (hrange : ∀ s ∈ shuffled, s < numSlots) :
    ∀ (ts : List TrackedFace) (k : ℕ),
      (slotList ts numSlots).Nodup →
      (∀ s ∈ slotList ts numSlots, s ∉ shuffled) →
      (slotList (applyAssignment shuffled numSlots ts k) numSlots).Nodup ∧
      (∀ s ∈ slotList (applyAssignment shuffled numSlots ts k) numSlots,
        s ∈ slotList ts numSlots ∨ ∃ j, k ≤ j ∧ shuffled[j]? = some s) := by
  intro ts
  induction ts with
  | nil =>
      intro k _ _
      exact ⟨List.nodup_nil, fun s hs => absurd hs (List.not_mem_nil s)⟩
  | cons t ts ih =>
      intro k hndi hdisj
      rw [applyAssignment]
      by_cases hu : isUnassigned t numSlots = true
      · have hsl := slotList_cons_unassigned t ts numSlots hu
        rw [hsl] at hndi hdisj
        rw [if_pos hu]
        cases hsk : shuffled[k]? with
        | some s =>
            have hsmem : s ∈ shuffled := List.getElem?_mem hsk
            have hslt : s < numSlots := hrange s hsmem
            have hout : slotList ({ t with slotIndex := some s } ::
                applyAssignment shuffled numSlots ts (k + 1)) numSlots =
                s :: slotList (applyAssignment shuffled numSlots ts (k + 1)) numSlots := by
              rw [slotList_cons]
              dsimp only
              rw [if_pos hslt]
            obtain ⟨ndIH, covIH⟩ := ih (k + 1) hndi hdisj
            rw [hout]
            constructor
            · rw [List.nodup_cons]
              refine ⟨?_, ndIH⟩
              intro hmem
              rcases covIH s hmem with hin | ⟨j, hjk, hj⟩
              · exact (hdisj s hin) hsmem
              · have hkl : k < shuffled.length := (List.getElem?_eq_some_iff.mp hsk).1
                have := List.getElem?_inj hkl hnd (hsk.trans hj.symm)
                omega
            · intro s' hm
              rcases List.mem_cons.mp hm with rfl | hm
              · exact Or.inr ⟨k, Nat.le_refl k, hsk⟩
              · rcases covIH s' hm with hin | ⟨j, hjk, hj⟩
                · exact Or.inl (by rw [hsl]; exact hin)
                · exact Or.inr ⟨j, by omega, hj⟩
        | none =>
            have hout : slotList (t ::
                applyAssignment shuffled numSlots ts (k + 1)) numSlots =
                slotList (applyAssignment shuffled numSlots ts (k + 1)) numSlots :=
              slotList_cons_unassigned t _ numSlots hu
            obtain ⟨ndIH, covIH⟩ := ih (k + 1) hndi hdisj
            rw [hout]
            refine ⟨ndIH, fun s' hm => ?_⟩
            rcases covIH s' hm with hin | ⟨j, hjk, hj⟩
            · exact Or.inl (by rw [hsl]; exact hin)
            · exact Or.inr ⟨j, by omega, hj⟩
      · rw [if_neg hu]
        obtain ⟨j, hs, hj⟩ := isUnassigned_false t numSlots (by
          cases hb : isUnassigned t numSlots with
          | true => exact absurd hb hu
          | false => rfl)
        have hsl : slotList (t :: ts) numSlots = j :: slotList ts numSlots := by
          rw [slotList_cons, hs]
          dsimp only
          rw [if_pos hj]
        rw [hsl] at hndi hdisj
        have hnj : j ∉ slotList ts numSlots := (List.nodup_cons.mp hndi).1
        have hndt : (slotList ts numSlots).Nodup := (List.nodup_cons.mp hndi).2
        have hdisjt : ∀ s ∈ slotList ts numSlots, s ∉ shuffled :=
          fun s hsm => hdisj s (List.mem_cons_of_mem j hsm)
        have hdj : j ∉ shuffled := hdisj j (List.mem_cons_self j _)
        obtain ⟨ndIH, covIH⟩ := ih k hndt hdisjt
        have hout : slotList (t :: applyAssignment shuffled numSlots ts k) numSlots =
            j :: slotList (applyAssignment shuffled numSlots ts k) numSlots := by
          rw [slotList_cons, hs]
          dsimp only
          rw [if_pos hj]
        rw [hout]
        constructor
        · rw [List.nodup_cons]
          refine ⟨?_, ndIH⟩
          intro hmem
          rcases covIH j hmem with hin | ⟨j', _, hj'⟩
          · exact hnj hin
          · exact hdj (List.getElem?_mem hj')
        · intro s' hm
          rcases List.mem_cons.mp hm with rfl | hm
          · exact Or.inl (by rw [hsl]; exact List.mem_cons_self s' _)
          · rcases covIH s' hm with hin | hright
            · exact Or.inl (by rw [hsl]; exact List.mem_cons_of_mem j hin)
            · exact Or.inr hright

/-- C8.  If no two tracks share an in-range slot index before a
`assignFacesToSlots` call, the same holds after it: at most one track
occupies any given slot index in `[0, numSlots)`. -/
theorem slot_uniqueness (shuffle : List ℕ → List ℕ)
    (hsh : ∀ l : List ℕ, (shuffle l).Perm l)
    (tracks : List TrackedFace) (numSlots : ℕ)
    (hnd : (slotList tracks numSlots).Nodup) :
    (slotList (assignFacesToSlots shuffle tracks numSlots).2 numSlots).Nodup := by
  have havail : (getAvailableSlots tracks numSlots).Nodup :=
    (List.nodup_range numSlots).filter _
  have hshn : (shuffle (getAvailableSlots tracks numSlots)).Nodup :=
    ((hsh _).nodup_iff).mpr havail
  have hrange : ∀ s ∈ shuffle (getAvailableSlots tracks numSlots), s < numSlots := by
    intro s hs
    have h2 : s ∈ getAvailableSlots tracks numSlots := ((hsh _).mem_iff).mp hs
    unfold getAvailableSlots at h2
    exact List.mem_range.mp (List.mem_filter.mp h2).1
  have hdisj : ∀ s ∈ slotList tracks numSlots,
      s ∉ shuffle (getAvailableSlots tracks numSlots) := by
    intro s hs hmem
    have h2 : s ∈ getAvailableSlots tracks numSlots := ((hsh _).mem_iff).mp hmem
    unfold getAvailableSlots at h2
    have h3 := (List.mem_filter.mp h2).2
    rw [decide_eq_true_iff] at h3
    exact h3 (List.mem_filter.mp hs).1
  exact (applyAssignment_slotList _ numSlots hshn hrange tracks 0 hnd hdisj).1

/-! ## C7: slot-less tracks and freed slots -/

/-- C7 (counterexample to the claim as stated).  Call 1: with one slot, track
id 0 holds slot 0 and track id 1 gets nothing — it "failed to receive a slot
at creation".  After track 0 is evicted, the very next call hands the freed
slot 0 to the still-living track 1: a slot-less live track does acquire a
freed slot, contradicting "never acquires a slot for the rest of its
lifetime".  (`fun l => l` is the identity permutation; on the lists `[]` and
`[0]` occurring here Fisher-Yates shuffling is deterministic, so this is the
only possible behaviour.) -/
theorem slotless_acquires_freed_slot_cex :
    (assignFacesToSlots (fun l => l)
      [⟨0, ⟨0, 0, 10, 10⟩, 0, some 0⟩, ⟨1, ⟨100, 0, 10, 10⟩, 0, none⟩] 1).2 =
      [⟨0, ⟨0, 0, 10, 10⟩, 0, some 0⟩, ⟨1, ⟨100, 0, 10, 10⟩, 0, none⟩] ∧
    (assignFacesToSlots (fun l => l) [⟨1, ⟨100, 0, 10, 10⟩, 0, none⟩] 1).2 =
      [⟨1, ⟨100, 0, 10, 10⟩, 0, some 0⟩] := by
  decide

/-- C7 (amended).  A live track without an in-range slot does contend again
on every call: whenever free slots exist and the track is among the first
`(number of free slots)` unassigned tracks in TrackSet order, it acquires one
of the currently free slots.  Freed slots are eligible for existing
unassigned tracks, not only for tracks created after the slot was freed. -/
theorem unassigned_track_acquires (shuffle : List ℕ → List ℕ)
    (hsh : ∀ l : List ℕ, (shuffle l).Perm l)
    (tracks : List TrackedFace) (numSlots p : ℕ) (hp : p < tracks.length)
    (hun : isUnassigned tracks[p] numSlots = true)
    (hcount : (tracks.take p).countP (fun t => isUnassigned t numSlots) <
      (getAvailableSlots tracks numSlots).length) :
    ∃ s, s ∈ getAvailableSlots tracks numSlots ∧
      (assignFacesToSlots shuffle tracks numSlots).2[p]? =
        some { tracks[p] with slotIndex := some s } := by
  have hlen : (shuffle (getAvailableSlots tracks numSlots)).length =
      (getAvailableSlots tracks numSlots).length := (hsh _).length_eq
  have hc : (tracks.take p).countP (fun t => isUnassigned t numSlots) <
      (shuffle (getAvailableSlots tracks numSlots)).length := by
    rw [hlen]; exact hcount
  refine ⟨(shuffle (getAvailableSlots tracks numSlots))[(tracks.take p).countP
      (fun t => isUnassigned t numSlots)], ?_, ?_⟩
  · exact ((hsh _).mem_iff).mp (List.getElem_mem hc)
  · show (applyAssignment (shuffle (getAvailableSlots tracks numSlots)) numSlots
        tracks 0)[p]? = _
    rw [applyAssignment_getElem _ _ tracks 0 p hp, if_pos hun, Nat.zero_add,
      List.getElem?_eq_getElem hc]

/-! ## Witnesses: each theorem with hypotheses, applied at a concrete input -/

theorem greedy_match_witness :
    (0 : ℕ) < ([⟨5, ⟨0, 0, 2, 2⟩, 1, none⟩] : List TrackedFace).length ∧
    bestUnused [⟨0, 0, 2, 2⟩]
      (usedAt [⟨0, 0, 2, 2⟩] 7 [⟨5, ⟨0, 0, 2, 2⟩, 1, none⟩] 0)
      (⟨5, ⟨0, 0, 2, 2⟩, 1, none⟩ : TrackedFace).data = some (0, ⟨0, 0, 2, 2⟩, 0) ∧
    (matchTracks [⟨0, 0, 2, 2⟩] 7 [⟨5, ⟨0, 0, 2, 2⟩, 1, none⟩]).1[0]? =
      some ⟨5, ⟨0, 0, 2, 2⟩, 7, none⟩ := by
  have hp : (0 : ℕ) < ([⟨5, ⟨0, 0, 2, 2⟩, 1, none⟩] : List TrackedFace).length := by decide
  have h : bestUnused [⟨0, 0, 2, 2⟩]
      (usedAt [⟨0, 0, 2, 2⟩] 7 [⟨5, ⟨0, 0, 2, 2⟩, 1, none⟩] 0)
      (⟨5, ⟨0, 0, 2, 2⟩, 1, none⟩ : TrackedFace).data = some (0, ⟨0, 0, 2, 2⟩, 0) := by
    norm_num [usedAt, matchTracks, bestUnused, bestAux, calculateFaceDistanceSq]
  refine ⟨hp, h, ?_⟩
  have hconc := (greedy_match [⟨0, 0, 2, 2⟩] 7 [⟨5, ⟨0, 0, 2, 2⟩, 1, none⟩]
    0 0 ⟨0, 0, 2, 2⟩ 0 hp h).2.2.2.2.1
    (by norm_num [MATCH_DISTANCE_THRESHOLD])
  exact hconc.1

theorem unmatched_track_unchanged_witness :
    (matchTracks [⟨300, 0, 2, 2⟩] 7 [⟨5, ⟨0, 0, 2, 2⟩, 1, none⟩]).1[0]? =
      some ⟨5, ⟨0, 0, 2, 2⟩, 1, none⟩ ∧
    usedAt [⟨300, 0, 2, 2⟩] 7 [⟨5, ⟨0, 0, 2, 2⟩, 1, none⟩] 1 =
      usedAt [⟨300, 0, 2, 2⟩] 7 [⟨5, ⟨0, 0, 2, 2⟩, 1, none⟩] 0 :=
  unmatched_track_unchanged [⟨300, 0, 2, 2⟩] 7 [⟨5, ⟨0, 0, 2, 2⟩, 1, none⟩] 0 (by decide)
    (by
      intro j hj _
      have hj1 : j = 0 := by simp at hj; omega
      subst hj1
      norm_num [calculateFaceDistanceSq, MATCH_DISTANCE_THRESHOLD, List.getElem_cons_zero])

theorem id_monotonicity_witness :
    (0 : ℕ) ≤ 2 ∧
    (List.Pairwise (· < ·) (runCreated [([⟨0, 0, 2, 2⟩], 0), ([], 600)] ([], 0)) ∧
     (runCreated [([⟨0, 0, 2, 2⟩], 0), ([], 600)] ([], 0)).Nodup ∧
     (runState (([([⟨0, 0, 2, 2⟩], (0 : ℚ)), ([], 600)]).take 0) ([], 0)).2 ≤
       (runState (([([⟨0, 0, 2, 2⟩], (0 : ℚ)), ([], 600)]).take 2) ([], 0)).2) :=
  ⟨by decide, id_monotonicity [([⟨0, 0, 2, 2⟩], 0), ([], 600)] 0 2 (by decide)⟩

theorem arrival_order_assign_witness :
    ([⟨7, ⟨50, 1, 2, 2⟩, 0, none⟩, ⟨3, ⟨1, 1, 2, 2⟩, 0, none⟩, ⟨9, ⟨99, 1, 2, 2⟩, 0, none⟩] :
      List TrackedFace).Perm
      [⟨3, ⟨1, 1, 2, 2⟩, 0, none⟩, ⟨7, ⟨50, 1, 2, 2⟩, 0, none⟩, ⟨9, ⟨99, 1, 2, 2⟩, 0, none⟩] ∧
    assignArrivalSlots
      [⟨7, ⟨50, 1, 2, 2⟩, 0, none⟩, ⟨3, ⟨1, 1, 2, 2⟩, 0, none⟩, ⟨9, ⟨99, 1, 2, 2⟩, 0, none⟩] 3 =
      [some ⟨1, 1, 2, 2⟩, some ⟨50, 1, 2, 2⟩, some ⟨99, 1, 2, 2⟩] := by
  have hperm : ([⟨7, ⟨50, 1, 2, 2⟩, 0, none⟩, ⟨3, ⟨1, 1, 2, 2⟩, 0, none⟩,
      ⟨9, ⟨99, 1, 2, 2⟩, 0, none⟩] : List TrackedFace).Perm
      [⟨3, ⟨1, 1, 2, 2⟩, 0, none⟩, ⟨7, ⟨50, 1, 2, 2⟩, 0, none⟩,
       ⟨9, ⟨99, 1, 2, 2⟩, 0, none⟩] := by decide
  exact ⟨hperm, (arrival_order_assign _ ⟨1, 1, 2, 2⟩ ⟨50, 1, 2, 2⟩ ⟨99, 1, 2, 2⟩
    0 0 0 none none none hperm).2⟩

theorem sticky_slot_persistence_witness :
    ((⟨0, ⟨0, 0, 10, 10⟩, 0, some 1⟩ : TrackedFace).slotIndex = some 1) ∧
    (1 < 2) ∧
    (slotList [⟨0, ⟨0, 0, 10, 10⟩, 0, some 1⟩, ⟨1, ⟨100, 0, 10, 10⟩, 0, some 0⟩] 2).Nodup ∧
    (assignFacesToSlots (fun l => l)
      [⟨0, ⟨0, 0, 10, 10⟩, 0, some 1⟩, ⟨1, ⟨100, 0, 10, 10⟩, 0, some 0⟩] 2).2[0]? =
      some ⟨0, ⟨0, 0, 10, 10⟩, 0, some 1⟩ ∧
    (assignFacesToSlots (fun l => l)
      [⟨0, ⟨0, 0, 10, 10⟩, 0, some 1⟩, ⟨1, ⟨100, 0, 10, 10⟩, 0, some 0⟩] 2).1[1]? =
      some (some ⟨0, 0, 10, 10⟩) := by
  have hconc := sticky_slot_persistence (fun l => l) (fun l => List.Perm.refl l)
    [⟨0, ⟨0, 0, 10, 10⟩, 0, some 1⟩, ⟨1, ⟨100, 0, 10, 10⟩, 0, some 0⟩] 2 0 1
    (by decide) (by decide) (by decide) (by decide)
  exact ⟨by decide, by decide, by decide, hconc.1, hconc.2⟩

theorem unassigned_track_acquires_witness :
    isUnassigned (⟨1, ⟨100, 0, 10, 10⟩, 0, none⟩ : TrackedFace) 1 = true ∧
    (([⟨1, ⟨100, 0, 10, 10⟩, 0, none⟩] : List TrackedFace).take 0).countP
      (fun t => isUnassigned t 1) < (getAvailableSlots [⟨1, ⟨100, 0, 10, 10⟩, 0, none⟩] 1).length ∧
    ∃ s, s ∈ getAvailableSlots [⟨1, ⟨100, 0, 10, 10⟩, 0, none⟩] 1 ∧
      (assignFacesToSlots (fun l => l) [⟨1, ⟨100, 0, 10, 10⟩, 0, none⟩] 1).2[0]? =
        some { (⟨1, ⟨100, 0, 10, 10⟩, 0, none⟩ : TrackedFace) with slotIndex := some s } :=
  ⟨by decide, by decide,
   unassigned_track_acquires (fun l => l) (fun l => List.Perm.refl l)
     [⟨1, ⟨100, 0, 10, 10⟩, 0, none⟩] 1 0 (by decide) (by decide) (by decide)⟩

theorem slot_uniqueness_witness :
    (slotList [⟨0, ⟨0, 0, 10, 10⟩, 0, some 0⟩, ⟨1, ⟨100, 0, 10, 10⟩, 0, none⟩] 2).Nodup ∧
    (slotList (assignFacesToSlots (fun l => l)
      [⟨0, ⟨0, 0, 10, 10⟩, 0, some 0⟩, ⟨1, ⟨100, 0, 10, 10⟩, 0, none⟩] 2).2 2).Nodup :=
  ⟨by decide,
   slot_uniqueness (fun l => l) (fun l => List.Perm.refl l)
     [⟨0, ⟨0, 0, 10, 10⟩, 0, some 0⟩, ⟨1, ⟨100, 0, 10, 10⟩, 0, none⟩] 2 (by decide)⟩

theorem output_sorted_witness :
    (([⟨2, ⟨50, 0, 2, 2⟩, 0, none⟩, ⟨0, ⟨0, 0, 2, 2⟩, 0, none⟩] : List TrackedFace).map
      (fun t => t.id)).Nodup ∧
    (∀ t ∈ ([⟨2, ⟨50, 0, 2, 2⟩, 0, none⟩, ⟨0, ⟨0, 0, 2, 2⟩, 0, none⟩] : List TrackedFace),
      t.id < 3) ∧
    List.Pairwise (fun a b => a.id < b.id)
      (updateTrackedFaces [⟨0, 0, 2, 2⟩, ⟨300, 0, 2, 2⟩]
        [⟨2, ⟨50, 0, 2, 2⟩, 0, none⟩, ⟨0, ⟨0, 0, 2, 2⟩, 0, none⟩] 3 5).updatedTracks :=
  ⟨by decide, by decide,
   output_sorted [⟨0, 0, 2, 2⟩, ⟨300, 0, 2, 2⟩]
     [⟨2, ⟨50, 0, 2, 2⟩, 0, none⟩, ⟨0, ⟨0, 0, 2, 2⟩, 0, none⟩] 3 5
     (by decide) (by decide)⟩
